import Mathlib

/-!
Verification development for `ii64/go-remote-agent` (`main.go`).

The Go program polls the mounted volumes of the host, derives a salted
identifier for each one, and registers one file-serving route per identifier.
This file embeds the relevant functions of `main.go` and proves the properties
stated about them.

Conventions of the embedding:

* a Go `string` is a Lean `String`; `[]byte(s)` is the list of its UTF-8 bytes;
* a byte is a `Nat` below `256`, a `uint32` is a `Nat` reduced `% 2^32`;
* a Go `map[string]V` is an association list with at most the first binding of
  a key visible (`GoMap`);
* a panic is an explicit result (`Run.panicked`) carrying the state at the
  point of the panic.
-/

namespace GoRemoteAgent

/-! ## Go strings and byte slices -/

/-- The conversion `[]byte(s)`: the UTF-8 bytes of the string. -/
def bytes (s : String) : List Nat :=
  s.data.flatMap (fun c => (String.utf8EncodeChar c).map UInt8.toNat)

/-! ## `encoding/hex` -/

namespace hex

/-- The table `hextable = "0123456789abcdef"` of `encoding/hex`. -/
def hextable : List Char :=
  ['0', '1', '2', '3', '4', '5', '6', '7', '8', '9', 'a', 'b', 'c', 'd', 'e', 'f']

/-- The two digits written for one byte `v`: `hextable[v>>4]`, `hextable[v&0x0f]`. -/
def encodeByte (v : Nat) : List Char :=
  [hextable.getD ((v / 16) % 16) '0', hextable.getD (v % 16) '0']

/-- The function `hex.EncodeToString`. -/
def EncodeToString (src : List Nat) : String :=
  String.mk (src.flatMap encodeByte)

end hex

/-! ## `crypto/sha256` (FIPS 180-4) -/

namespace sha256

/-- The round constants `_K`. -/
def K : List Nat := [
  0x428a2f98, 0x71374491, 0xb5c0fbcf, 0xe9b5dba5, 0x3956c25b, 0x59f111f1, 0x923f82a4, 0xab1c5ed5,
  0xd807aa98, 0x12835b01, 0x243185be, 0x550c7dc3, 0x72be5d74, 0x80deb1fe, 0x9bdc06a7, 0xc19bf174,
  0xe49b69c1, 0xefbe4786, 0x0fc19dc6, 0x240ca1cc, 0x2de92c6f, 0x4a7484aa, 0x5cb0a9dc, 0x76f988da,
  0x983e5152, 0xa831c66d, 0xb00327c8, 0xbf597fc7, 0xc6e00bf3, 0xd5a79147, 0x06ca6351, 0x14292967,
  0x27b70a85, 0x2e1b2138, 0x4d2c6dfc, 0x53380d13, 0x650a7354, 0x766a0abb, 0x81c2c92e, 0x92722c85,
  0xa2bfe8a1, 0xa81a664b, 0xc24b8b70, 0xc76c51a3, 0xd192e819, 0xd6990624, 0xf40e3585, 0x106aa070,
  0x19a4c116, 0x1e376c08, 0x2748774c, 0x34b0bcb5, 0x391c0cb3, 0x4ed8aa4a, 0x5b9cca4f, 0x682e6ff3,
  0x748f82ee, 0x78a5636f, 0x84c87814, 0x8cc70208, 0x90befffa, 0xa4506ceb, 0xbef9a3f7, 0xc67178f2]

/-- The size of a SHA-256 checksum in bytes (`sha256.Size`). -/
def Size : Nat := 32

/-- The block size of SHA-256 in bytes (`sha256.BlockSize`). -/
def BlockSize : Nat := 64

/-- The chaining value `dig.h`, eight `uint32` words. -/
structure Words where
  h0 : Nat
  h1 : Nat
  h2 : Nat
  h3 : Nat
  h4 : Nat
  h5 : Nat
  h6 : Nat
  h7 : Nat
  deriving DecidableEq, Repr

/-- The initial chaining value `init0 .. init7`. -/
def init : Words :=
  ⟨0x6a09e667, 0xbb67ae85, 0x3c6ef372, 0xa54ff53a, 0x510e527f, 0x9b05688c, 0x1f83d9ab, 0x5be0cd19⟩

/-- Addition of `uint32` values. -/
def add32 (x y : Nat) : Nat := (x + y) % 2 ^ 32

/-- The rotation `bits.RotateLeft32(x, -n)` of a `uint32`, for `0 < n < 32`. -/
def rotr (x n : Nat) : Nat := ((x >>> n) ||| (x <<< (32 - n))) % 2 ^ 32

/-- The complement `^x` of a `uint32`. -/
def not32 (x : Nat) : Nat := 0xffffffff ^^^ (x % 2 ^ 32)

/-- The big-endian load of the `i`-th `uint32` of a block. -/
def loadWord (p : List Nat) (i : Nat) : Nat :=
  (p.getD (4 * i) 0 % 256) * 2 ^ 24 + (p.getD (4 * i + 1) 0 % 256) * 2 ^ 16
    + (p.getD (4 * i + 2) 0 % 256) * 2 ^ 8 + (p.getD (4 * i + 3) 0 % 256)

/-- One step `w[i] = t1 + w[i-7] + t2 + w[i-16]` of the message schedule, where
`w` holds the words `w[0] .. w[i-1]`. -/
def extend (w : List Nat) : List Nat :=
  let i := w.length
  let v1 := w.getD (i - 2) 0
  let t1 := (rotr v1 17) ^^^ (rotr v1 19) ^^^ (v1 >>> 10)
  let v2 := w.getD (i - 15) 0
  let t2 := (rotr v2 7) ^^^ (rotr v2 18) ^^^ (v2 >>> 3)
  w ++ [add32 (add32 (add32 t1 (w.getD (i - 7) 0)) t2) (w.getD (i - 16) 0)]

/-- The message schedule `w[0..63]` of one 64-byte block. -/
def schedule (p : List Nat) : List Nat :=
  Nat.iterate extend 48 ((List.range 16).map (loadWord p))

/-- One round of the compression function on the working variables `a .. h`. -/
def round (s : Words) (kw : Nat × Nat) : Words :=
  let t1 := add32 (add32 (add32 (add32 s.h7
      ((rotr s.h4 6) ^^^ (rotr s.h4 11) ^^^ (rotr s.h4 25)))
      ((s.h4 &&& s.h5) ^^^ (not32 s.h4 &&& s.h6))) kw.1) kw.2
  let t2 := add32 ((rotr s.h0 2) ^^^ (rotr s.h0 13) ^^^ (rotr s.h0 22))
      ((s.h0 &&& s.h1) ^^^ (s.h0 &&& s.h2) ^^^ (s.h1 &&& s.h2))
  ⟨add32 t1 t2, s.h0, s.h1, s.h2, add32 s.h3 t1, s.h4, s.h5, s.h6⟩

/-- The compression of one 64-byte block into the chaining value. -/
def blockOne (h : Words) (p : List Nat) : Words :=
  let s := (K.zip (schedule p)).foldl round h
  ⟨add32 h.h0 s.h0, add32 h.h1 s.h1, add32 h.h2 s.h2, add32 h.h3 s.h3,
   add32 h.h4 s.h4, add32 h.h5 s.h5, add32 h.h6 s.h6, add32 h.h7 s.h7⟩

/-- The function `blockGeneric`: the loop `for len(p) >= chunk`, run for at most
`fuel` blocks. -/
def block : Nat → Words → List Nat → Words
  | 0, h, _ => h
  | fuel + 1, h, p =>
    if 64 ≤ p.length then block fuel (blockOne h (p.take 64)) (p.drop 64) else h

/-- The padding of `checkSum`: the byte `0x80`, zeros up to 56 modulo 64, and
the length in bits as a big-endian `uint64`. -/
def padding (len : Nat) : List Nat :=
  let bits := (len * 8) % 2 ^ 64
  [0x80] ++ List.replicate ((55 + 64 - len % 64) % 64) 0
    ++ (List.range 8).map (fun i => (bits / 2 ^ (8 * (7 - i))) % 256)

/-- The big-endian bytes of a `uint32`. -/
def putUint32 (x : Nat) : List Nat :=
  [(x / 2 ^ 24) % 256, (x / 2 ^ 16) % 256, (x / 2 ^ 8) % 256, x % 256]

/-- The checksum of all bytes written to a digest (`digest.checkSum`). -/
def checkSum (data : List Nat) : List Nat :=
  let p := data ++ padding data.length
  let h := block (p.length / 64) init p
  putUint32 h.h0 ++ putUint32 h.h1 ++ putUint32 h.h2 ++ putUint32 h.h3
    ++ putUint32 h.h4 ++ putUint32 h.h5 ++ putUint32 h.h6 ++ putUint32 h.h7

/-- The running hash `sha256.digest` seen through `hash.Hash`: the bytes written
to it so far. -/
structure digest where
  written : List Nat
  deriving DecidableEq, Repr

/-- The constructor `sha256.New`. -/
def New : digest := ⟨[]⟩

/-- The method `Write`: adds more data to the running hash. -/
def digest.Write (d : digest) (p : List Nat) : digest := ⟨d.written ++ p⟩

/-- The method `Reset`. -/
def digest.Reset (_ : digest) : digest := ⟨[]⟩

/-- The method `Sum(in)`: appends the current checksum to `in`; the running hash
is left as it is. -/
def digest.Sum (d : digest) (b : List Nat) : List Nat := b ++ checkSum d.written

end sha256

/-! ## `crypto/hmac` over SHA-256 -/

namespace hmac

/-- The struct `hmac` of `crypto/hmac`. -/
structure HMAC where
  opad : List Nat
  ipad : List Nat
  outer : sha256.digest
  inner : sha256.digest
  deriving DecidableEq, Repr

/-- The copy of `key` into a zeroed block of `blocksize` bytes. -/
def padKey (blocksize : Nat) (key : List Nat) : List Nat :=
  (key ++ List.replicate (blocksize - key.length) 0).take blocksize

/-- The function `hmac.New(sha256.New, key)`. -/
def New (key : List Nat) : HMAC :=
  let outer := sha256.New
  let inner := sha256.New
  let blocksize := sha256.BlockSize
  let outer1 := if blocksize < key.length then outer.Write key else outer
  let key1 := if blocksize < key.length then outer1.Sum [] else key
  let ipad := (padKey blocksize key1).map (fun b => b ^^^ 0x36)
  let opad := (padKey blocksize key1).map (fun b => b ^^^ 0x5c)
  { opad := opad, ipad := ipad, outer := outer1, inner := inner.Write ipad }

/-- The method `Write` of `hmac`. -/
def HMAC.Write (h : HMAC) (p : List Nat) : HMAC := { h with inner := h.inner.Write p }

/-- The method `Sum(in)` of `hmac`, returning the checksum appended to `in`. -/
def HMAC.Sum (h : HMAC) (b : List Nat) : List Nat :=
  let origLen := b.length
  let b1 := h.inner.Sum b
  let outer := (h.outer.Reset.Write h.opad).Write (b1.drop origLen)
  outer.Sum (b1.take origLen)

end hmac

/-- The message authentication code HMAC-SHA256 of RFC 2104 written out:
`H((K' xor opad) ++ H((K' xor ipad) ++ m))`, where `K'` is the key hashed when
longer than a block and then zero-padded to the block size. -/
def hmacSHA256 (key msg : List Nat) : List Nat :=
  let k0 := if 64 < key.length then sha256.checkSum key else key
  let k := hmac.padKey 64 k0
  sha256.checkSum (k.map (fun b => b ^^^ 0x5c)
    ++ sha256.checkSum (k.map (fun b => b ^^^ 0x36) ++ msg))

/-! ## `normalizePartID` -/

/-- The function `normalizePartID` of `main.go`, with the global `appSalt` as
first argument. -/
def normalizePartID (appSalt deviceName mountpoint : String) : String :=
  let h := hmac.New (bytes appSalt)
  let h := h.Write (bytes deviceName)
  let h := h.Write (bytes mountpoint)
  hex.EncodeToString (h.Sum [])

/-! ## Volumes, Go maps and `partitionDiff` -/

/-- Modelled from the spec: the Volume Descriptor (`disk.PartitionStat` of
gopsutil, whose declaration is not under `src/`): device name, mount point,
filesystem type and the ordered sequence of mount options. -/
structure PartitionStat where
  Device : String
  Mountpoint : String
  Fstype : String
  Opts : List String
  deriving DecidableEq, Repr

/-- A Go `map[string]V`: an association list read through `mapGet`. -/
abbrev GoMap (V : Type) := List (String × V)

/-- The lookup `v, exist := m[k]`; `none` when the key is absent. -/
def mapGet {V : Type} (m : GoMap V) (k : String) : Option V :=
  match m with
  | [] => none
  | (k1, v1) :: rest => if k1 = k then some v1 else mapGet rest k

/-- The assignment `m[k] = v`: replaces the value of a present key, adds an
absent one. -/
def mapSet {V : Type} (m : GoMap V) (k : String) (v : V) : GoMap V :=
  match m with
  | [] => [(k, v)]
  | (k1, v1) :: rest => if k1 = k then (k, v) :: rest else (k1, v1) :: mapSet rest k v

/-- The keys of a Go map. -/
def mapKeys {V : Type} (m : GoMap V) : List String := m.map Prod.fst

/-- The function `partitionDiff` of `main.go`: the first loop fills `hcheck`,
the second appends to `diffParts` the entries whose mount point is not a key. -/
def partitionDiff (oldParts newParts : List PartitionStat) : List PartitionStat :=
  let hcheck : GoMap PartitionStat :=
    oldParts.foldl (fun hcheck oPart => mapSet hcheck oPart.Mountpoint oPart) []
  newParts.foldl
    (fun diffParts nPart =>
      match mapGet hcheck nPart.Mountpoint with
      | some _ => diffParts
      | none => diffParts ++ [nPart])
    []

/-! ## Handlers and the request multiplexer -/

/-- The `http.Handler` values this program builds. -/
inductive Handler where
  /-- The handler `http.FileServer(http.Dir(root))`. -/
  | FileServer (root : String)
  /-- The handler `http.StripPrefix(pfx, h)`. -/
  | StripPrefix (pfx : String) (h : Handler)
  /-- The handler `&nocacheServer{h}`. -/
  | nocacheServer (h : Handler)
  /-- The handler `http.HandlerFunc(f)` for the closure of `main` registered
  under `pattern`. -/
  | HandlerFunc (pattern : String)
  deriving DecidableEq, Repr

/-- The `http.ServeMux`: its registrations, in the order they were made. -/
structure ServeMux where
  entries : List (String × Handler)
  deriving DecidableEq, Repr

/-- The constructor `http.NewServeMux`. -/
def NewServeMux : ServeMux := ⟨[]⟩

/-- The patterns registered in a mux. -/
def ServeMux.patterns (m : ServeMux) : List String := m.entries.map Prod.fst

/-- The handler registered under exactly this pattern, if any. -/
def ServeMux.handlerOf (m : ServeMux) (pattern : String) : Option Handler :=
  mapGet m.entries pattern

/-- The method `mux.Handle(pattern, handler)`: it panics on an empty pattern and
on a pattern that is already registered; the panic message is the error. -/
def ServeMux.Handle (m : ServeMux) (pattern : String) (handler : Handler) :
    Except String ServeMux :=
  if pattern = "" then .error "http: invalid pattern"
  else if pattern ∈ m.patterns then .error ("http: multiple registrations for " ++ pattern)
  else .ok ⟨m.entries ++ [(pattern, handler)]⟩

/-! ## The discovery loop -/

/-- The constant `endpointFilesystem`. -/
def endpointFilesystem : String := "/filesystem"

/-- A Go `error` value, by its message. -/
abbrev GoError := String

/-- What the loop does that is visible outside the three globals: the records
it logs through `slog` and its sleeps. -/
inductive Event where
  /-- The record `slog.Error(msg, slog.Any("err", err))`. -/
  | Error (msg : String) (err : GoError)
  /-- The record `slog.Debug(msg, slog.Any(key, value))`. -/
  | Debug (msg key : String) (value : List PartitionStat)
  /-- The call `time.Sleep(time.Second * seconds)`. -/
  | Sleep (seconds : Nat)
  deriving DecidableEq, Repr

/-- The globals `partitions`, `registeredFileServer` and `mux`, and the events
of the loop so far. -/
structure State where
  partitions : List PartitionStat
  registeredFileServer : GoMap Handler
  mux : ServeMux
  events : List Event
  deriving DecidableEq, Repr

/-- The result of running code that may panic. -/
inductive Run where
  /-- The code ran to its end, in this state. -/
  | done (s : State)
  /-- The code panicked with this message, in this state. -/
  | panicked (s : State) (msg : String)
  deriving DecidableEq, Repr

/-- The state a run ended or panicked in. -/
def Run.state : Run → State
  | .done s => s
  | .panicked s _ => s

/-- The body of `for _, part := range newPartitions` (lines 46-53). -/
def registerPart (appSalt : String) (s : State) (part : PartitionStat) : Run :=
  let key := normalizePartID appSalt part.Device part.Mountpoint
  match mapGet s.registeredFileServer key with
  | some _ => .done s
  | none =>
    let fsPrefix := endpointFilesystem ++ "/" ++ key
    let fsHandler := Handler.StripPrefix fsPrefix (Handler.FileServer part.Mountpoint)
    let s1 := { s with registeredFileServer := mapSet s.registeredFileServer key fsHandler }
    match s1.mux.Handle (fsPrefix ++ "/") (Handler.nocacheServer fsHandler) with
    | .error msg => .panicked s1 msg
    | .ok m => .done { s1 with mux := m }

/-- The loop `for _, part := range newPartitions` (lines 45-54). -/
def rangeParts (appSalt : String) : State → List PartitionStat → Run
  | s, [] => .done s
  | s, part :: rest =>
    match registerPart appSalt s part with
    | .done s1 => rangeParts appSalt s1 rest
    | .panicked s1 msg => .panicked s1 msg

/-- One iteration of the `for` loop of `periodicCheckPartitions` (lines 40-60),
given what `disk.Partitions(true)` returned. -/
def periodicCheckPartitionsIter (appSalt : String) (s : State)
    (res : Except GoError (List PartitionStat)) : Run :=
  match res with
  | .error err =>
    .done { s with events := s.events ++ [Event.Error "periodic part check" err, Event.Sleep 10] }
  | .ok newPartitions =>
    match rangeParts appSalt s newPartitions with
    | .panicked s1 msg => .panicked s1 msg
    | .done s1 =>
      let s2 := { s1 with partitions := newPartitions }
      let s3 := { s2 with
        events := s2.events ++ [Event.Debug "periodic part check" "parts" s2.partitions] }
      let diffParts := partitionDiff s3.partitions newPartitions
      .done { s3 with
        events := s3.events ++ [Event.Debug "partition update" "diff" diffParts, Event.Sleep 10] }

/-- The function `periodicCheckPartitions` run for as many iterations as there
are results of `disk.Partitions` in the list; a panic ends the run. -/
def periodicCheckPartitions (appSalt : String) :
    State → List (Except GoError (List PartitionStat)) → Run
  | s, [] => .done s
  | s, res :: rest =>
    match periodicCheckPartitionsIter appSalt s res with
    | .done s1 => periodicCheckPartitions appSalt s1 rest
    | .panicked s1 msg => .panicked s1 msg

/-- The state in which `main` starts `periodicCheckPartitions`: no snapshot, no
file server, and the mux holding the two pages registered by `main`. -/
def initialState : State :=
  { partitions := []
    registeredFileServer := []
    mux := ⟨[("/parts", Handler.HandlerFunc "/parts"), ("/", Handler.HandlerFunc "/")]⟩
    events := [] }

/-! ## Relations between states used in the proofs -/

/-- The state `s1` extends `s`: every file server and every mux registration of
`s` is in `s1` unchanged, no pattern of `s` is registered again, and the
snapshot and the events are the same. -/
def Grows (s s1 : State) : Prop :=
  (∀ k h, mapGet s.registeredFileServer k = some h → mapGet s1.registeredFileServer k = some h)
  ∧ (∀ p h, s.mux.handlerOf p = some h → s1.mux.handlerOf p = some h)
  ∧ (∀ p, p ∈ s.mux.patterns → s1.mux.patterns.count p = s.mux.patterns.count p)
  ∧ s1.partitions = s.partitions
  ∧ s1.events = s.events

/-- The route invariant: no pattern is registered twice in the mux, every
pattern of the mux is one of the two pages of `main` or the route of a key of
`registeredFileServer`, and every key has its route in the mux. -/
def RouteInv (s : State) : Prop :=
  s.mux.patterns.Nodup
  ∧ (∀ p ∈ s.mux.patterns, p = "/parts" ∨ p = "/"
      ∨ ∃ id, mapGet s.registeredFileServer id ≠ none ∧ p = endpointFilesystem ++ "/" ++ id ++ "/")
  ∧ (∀ id, mapGet s.registeredFileServer id ≠ none
      → endpointFilesystem ++ "/" ++ id ++ "/" ∈ s.mux.patterns)

/-! ## Concrete inputs used in the instances below -/

/-- The volume of the end-to-end example: device `/dev/sda1` mounted at `/data`. -/
def sda1 : PartitionStat := ⟨"/dev/sda1", "/data", "ext4", ["rw"]⟩

/-- A volume whose device and mount point concatenate to the same bytes as those
of `sda1`. -/
def sdaSplit : PartitionStat := ⟨"/dev/sda", "1/data", "ext4", ["rw"]⟩

/-- The identifier of `sda1` under the default salt `BUZZINGA`. -/
def sda1ID : String := "10b1035dca890bb3335a410a35887de76a043caecd1de09a45d0f876ce2f5ff1"

/-- The file server the loop builds for `sda1` under the default salt. -/
def sda1Handler : Handler :=
  Handler.StripPrefix ("/filesystem/" ++ sda1ID) (Handler.FileServer "/data")

/-- The globals after `sda1` has been registered under the default salt, with
the given snapshot and events. -/
def sda1State (partitions : List PartitionStat) (events : List Event) : State :=
  { partitions := partitions
    registeredFileServer := [(sda1ID, sda1Handler)]
    mux := ⟨[("/parts", Handler.HandlerFunc "/parts"), ("/", Handler.HandlerFunc "/"),
      ("/filesystem/" ++ sda1ID ++ "/", Handler.nocacheServer sda1Handler)]⟩
    events := events }

/-- The file server the loop builds under the default salt when `sdaSplit` is
the first volume seen with the identifier `sda1ID`. -/
def sdaSplitHandler : Handler :=
  Handler.StripPrefix ("/filesystem/" ++ sda1ID) (Handler.FileServer "1/data")

/-- The globals after `sdaSplit` has been registered under the default salt,
with the given snapshot and events. -/
def sdaSplitState (partitions : List PartitionStat) (events : List Event) : State :=
  { partitions := partitions
    registeredFileServer := [(sda1ID, sdaSplitHandler)]
    mux := ⟨[("/parts", Handler.HandlerFunc "/parts"), ("/", Handler.HandlerFunc "/"),
      ("/filesystem/" ++ sda1ID ++ "/", Handler.nocacheServer sdaSplitHandler)]⟩
    events := events }

/-! ## `nocacheServer` -/

namespace textproto

/-- The bytes allowed in a header field name (`validHeaderFieldByte`): letters,
digits and the token punctuation of RFC 7230. -/
def validHeaderFieldByte (c : Char) : Bool :=
  c.isAlphanum || c ∈ ['!', '#', '$', '%', '&', Char.ofNat 39, '*', '+', '-', '.', '^', '_',
    Char.ofNat 96, '|', '~']

/-- The loop of `canonicalMIMEHeaderKey`: the first letter and every letter
after a hyphen in upper case, the other letters in lower case. -/
def canonicalLoop : Bool → List Char → List Char
  | _, [] => []
  | upper, c :: rest =>
    let c1 :=
      if upper && c.isLower then c.toUpper
      else if !upper && c.isUpper then c.toLower
      else c
    c1 :: canonicalLoop (c1 == '-') rest

/-- The function `textproto.CanonicalMIMEHeaderKey`: a key holding a byte that
is not allowed in a field name is returned unchanged. -/
def CanonicalMIMEHeaderKey (s : String) : String :=
  if s.data.all validHeaderFieldByte then String.mk (canonicalLoop true s.data) else s

end textproto

/-- The type `http.Header`. -/
abbrev Header := GoMap (List String)

/-- The method `Header.Set(key, value)`: the values of the canonical form of
`key` are replaced by the single value `value`. -/
def Header.Set (h : Header) (key value : String) : Header :=
  mapSet h (textproto.CanonicalMIMEHeaderKey key) [value]

/-- The response seen through an `http.ResponseWriter`: the header map returned
by `Header()`, the status code given to `WriteHeader` if it was called, and
the bytes given to `Write`. -/
structure ResponseWriter where
  header : Header
  status : Option Nat
  body : List Nat
  deriving DecidableEq, Repr

/-- The `*http.Request` handed to a handler. -/
structure Request where
  method : String
  path : String
  deriving DecidableEq, Repr

/-- The method `ServeHTTP` of an arbitrary `http.Handler`: what it makes of the
response for a request. -/
abbrev ServeFunc := ResponseWriter → Request → ResponseWriter

/-- The struct `nocacheServer`; the field `h` is `none` for a nil handler. -/
structure nocacheServer where
  h : Option ServeFunc

/-- The method `(*nocacheServer).ServeHTTP` of `main.go`. -/
def nocacheServer.ServeHTTP (s : nocacheServer) (w : ResponseWriter) (r : Request) :
    ResponseWriter :=
  let w := { w with
    header := Header.Set w.header "Cache-Control" "no-cache, no-store, must-revalidate" }
  let w := { w with header := Header.Set w.header "Pragma" "no-cache" }
  let w := { w with header := Header.Set w.header "Expires" "0" }
  let w := { w with header := Header.Set w.header "Surrogate-Control" "no-cache" }
  match s.h with
  | some h => h w r
  | none => w

/-! # Theorems -/

/-! ## Facts about Go maps -/

theorem mapGet_mapSet_self {V : Type} (m : GoMap V) (k : String) (v : V) :
    mapGet (mapSet m k v) k = some v := by
  induction m with
  | nil => simp [mapSet, mapGet]
  | cons e rest ih =>
    obtain ⟨k1, v1⟩ := e
    by_cases h : k1 = k
    · simp [mapSet, mapGet, h]
    · simp [mapSet, mapGet, h, ih]

theorem mapGet_mapSet_ne {V : Type} (m : GoMap V) (k k2 : String) (v : V) (hne : k ≠ k2) :
    mapGet (mapSet m k v) k2 = mapGet m k2 := by
  induction m with
  | nil => simp [mapSet, mapGet, hne]
  | cons e rest ih =>
    obtain ⟨k1, v1⟩ := e
    by_cases h : k1 = k
    · subst h
      simp [mapSet, mapGet, hne]
    · by_cases h2 : k1 = k2
      · subst h2
        simp [mapSet, mapGet, h]
      · simp [mapSet, mapGet, h, h2, ih]

theorem mapGet_eq_none_iff {V : Type} (m : GoMap V) (k : String) :
    mapGet m k = none ↔ k ∉ mapKeys m := by
  induction m with
  | nil => simp [mapGet, mapKeys]
  | cons e rest ih =>
    obtain ⟨k1, v1⟩ := e
    by_cases h : k1 = k
    · simp [mapGet, mapKeys, h]
    · have h2 : ¬ k = k1 := fun e => h e.symm
      simp only [mapKeys] at ih
      simp [mapGet, mapKeys, h, h2, ih]

theorem mapGet_append_of_mem {V : Type} (m n : GoMap V) (k : String) (h : k ∈ mapKeys m) :
    mapGet (m ++ n) k = mapGet m k := by
  induction m with
  | nil => simp [mapKeys] at h
  | cons e rest ih =>
    obtain ⟨k1, v1⟩ := e
    by_cases h1 : k1 = k
    · simp [mapGet, h1]
    · have h2 : k ∈ mapKeys rest := by
        simp only [mapKeys, List.map_cons, List.mem_cons] at h
        rcases h with h | h
        · exact absurd h.symm h1
        · exact h
      simp [mapGet, h1, ih h2]

theorem mapGet_append_of_not_mem {V : Type} (m n : GoMap V) (k : String) (h : k ∉ mapKeys m) :
    mapGet (m ++ n) k = mapGet n k := by
  induction m with
  | nil => simp
  | cons e rest ih =>
    obtain ⟨k1, v1⟩ := e
    simp only [mapKeys, List.map_cons, List.mem_cons, not_or] at h
    have h1 : ¬ k1 = k := fun e => h.1 e.symm
    simp [mapGet, h1, ih h.2]

theorem mapGet_append_of_some {V : Type} (m n : GoMap V) (k : String) (v : V)
    (h : mapGet m k = some v) : mapGet (m ++ n) k = some v := by
  have hk : k ∈ mapKeys m := by
    by_contra hc
    rw [(mapGet_eq_none_iff m k).mpr hc] at h
    exact Option.noConfusion h
  rw [mapGet_append_of_mem m n k hk, h]

/-! ## Facts about `partitionDiff` -/

theorem hcheck_get_none (oldParts : List PartitionStat) (h0 : GoMap PartitionStat) (mp : String) :
    mapGet (oldParts.foldl (fun hcheck oPart => mapSet hcheck oPart.Mountpoint oPart) h0) mp = none
      ↔ mapGet h0 mp = none ∧ mp ∉ oldParts.map PartitionStat.Mountpoint := by
  induction oldParts generalizing h0 with
  | nil => simp
  | cons o rest ih =>
    simp only [List.foldl_cons, List.map_cons, List.mem_cons, not_or]
    rw [ih]
    by_cases h : o.Mountpoint = mp
    · subst h
      simp [mapGet_mapSet_self]
    · rw [mapGet_mapSet_ne _ _ _ _ h]
      have h2 : ¬ mp = o.Mountpoint := fun e => h e.symm
      simp [h2]

theorem diffParts_foldl (hcheck : GoMap PartitionStat) (newParts acc : List PartitionStat) :
    newParts.foldl
        (fun diffParts nPart =>
          match mapGet hcheck nPart.Mountpoint with
          | some _ => diffParts
          | none => diffParts ++ [nPart])
        acc
      = acc ++ newParts.filter (fun n => decide (mapGet hcheck n.Mountpoint = none)) := by
  induction newParts generalizing acc with
  | nil => simp
  | cons n rest ih =>
    simp only [List.foldl_cons]
    rw [ih]
    cases h : mapGet hcheck n.Mountpoint with
    | none => simp [List.filter_cons, h]
    | some v => simp [List.filter_cons, h]

theorem partitionDiff_eq_filter (oldParts newParts : List PartitionStat) :
    partitionDiff oldParts newParts
      = newParts.filter
          (fun n => decide (n.Mountpoint ∉ oldParts.map PartitionStat.Mountpoint)) := by
  unfold partitionDiff
  simp only
  rw [diffParts_foldl]
  simp only [List.nil_append]
  apply List.filter_congr
  intro n _
  have := hcheck_get_none oldParts [] n.Mountpoint
  simp only [mapGet, true_and] at this
  simp only [decide_eq_decide]
  exact this

/-- Claim C1: `partitionDiff old new` is the sub-list of `new`, in order and with
repetitions, of the entries whose mount point is the mount point of no entry
of `old`; an entry of `new` whose mount point occurs in `old` is not returned,
whatever its other fields; on old = [/a, /b], new = [/b, /c] the result is the
entry with mount point /c. -/
theorem partitionDiff_spec :
    (∀ oldParts newParts : List PartitionStat,
      partitionDiff oldParts newParts
        = newParts.filter
            (fun n => decide (∀ o ∈ oldParts, o.Mountpoint ≠ n.Mountpoint)))
    ∧ (∀ (oldParts newParts : List PartitionStat) (o n : PartitionStat),
        o ∈ oldParts → o.Mountpoint = n.Mountpoint → n ∉ partitionDiff oldParts newParts)
    ∧ (∀ (d1 d2 d3 d4 f1 f2 f3 f4 : String) (o1 o2 o3 o4 : List String),
        partitionDiff [⟨d1, "/a", f1, o1⟩, ⟨d2, "/b", f2, o2⟩]
            [⟨d3, "/b", f3, o3⟩, ⟨d4, "/c", f4, o4⟩]
          = [⟨d4, "/c", f4, o4⟩]) := by
  refine ⟨?_, ?_, ?_⟩
  · intro oldParts newParts
    rw [partitionDiff_eq_filter]
    apply List.filter_congr
    intro n _
    simp only [decide_eq_decide, List.mem_map, not_exists, not_and]
  · intro oldParts newParts o n ho heq hmem
    rw [partitionDiff_eq_filter, List.mem_filter] at hmem
    have h2 := hmem.2
    simp only [decide_eq_true_eq, List.mem_map, not_exists, not_and] at h2
    exact h2 o ho heq
  · intro d1 d2 d3 d4 f1 f2 f3 f4 o1 o2 o3 o4
    rw [partitionDiff_eq_filter]
    simp [List.filter_cons]

/-- Instance of the second part of `partitionDiff_spec`: a volume remounted at
"/data" from another device is not reported. -/
theorem partitionDiff_spec_witness :
    (⟨"/dev/sdb1", "/data", "xfs", ["ro"]⟩ : PartitionStat)
      ∉ partitionDiff [⟨"/dev/sda1", "/data", "ext4", ["rw"]⟩]
          [⟨"/dev/sdb1", "/data", "xfs", ["ro"]⟩] :=
  partitionDiff_spec.2.1 _ _ ⟨"/dev/sda1", "/data", "ext4", ["rw"]⟩ _
    (by decide) (by decide)

/-- Claim C9: for every volume list `X`, also one that repeats a mount point,
`partitionDiff X X` is the empty sequence. -/
theorem partitionDiff_self (X : List PartitionStat) : partitionDiff X X = [] := by
  rw [partitionDiff_eq_filter, List.filter_eq_nil_iff]
  intro n hn
  simp only [decide_eq_true_eq, not_not]
  exact List.mem_map_of_mem _ hn


/-! ## Facts about `normalizePartID` -/

theorem bytes_append (a b : String) : bytes (a ++ b) = bytes a ++ bytes b := by
  unfold bytes
  rw [String.data_append, List.flatMap_append]

theorem sha256_putUint32_length (x : Nat) : (sha256.putUint32 x).length = 4 := rfl

theorem sha256_checkSum_length (data : List Nat) : (sha256.checkSum data).length = 32 := by
  unfold sha256.checkSum
  simp only [List.length_append, sha256_putUint32_length]

theorem hex_encodeByte_length (v : Nat) : (hex.encodeByte v).length = 2 := rfl

theorem hex_flatMap_length (src : List Nat) :
    (src.flatMap hex.encodeByte).length = 2 * src.length := by
  induction src with
  | nil => simp
  | cons v rest ih =>
    simp only [List.flatMap_cons, List.length_append, List.length_cons, ih, hex_encodeByte_length]
    omega

theorem hex_EncodeToString_length (src : List Nat) :
    (hex.EncodeToString src).length = 2 * src.length := by
  unfold hex.EncodeToString
  simp only [String.length]
  exact hex_flatMap_length src

theorem hextable_getD_mem :
    ∀ n, n < 16 → hex.hextable.getD n '0' ∈ "0123456789abcdef".data := by
  decide

theorem hex_EncodeToString_digits (src : List Nat) :
    ∀ c ∈ (hex.EncodeToString src).data, c ∈ "0123456789abcdef".data := by
  intro c hc
  simp only [hex.EncodeToString, List.mem_flatMap, hex.encodeByte, List.mem_cons,
    List.mem_singleton, List.not_mem_nil, or_false] at hc
  obtain ⟨v, _, hv⟩ := hc
  rcases hv with hv | hv
  · rw [hv]
    exact hextable_getD_mem _ (Nat.mod_lt _ (by decide))
  · rw [hv]
    exact hextable_getD_mem _ (Nat.mod_lt _ (by decide))

theorem hmac_Sum_eq (key msg1 msg2 : List Nat) :
    (((hmac.New key).Write msg1).Write msg2).Sum [] = hmacSHA256 key (msg1 ++ msg2) := by
  unfold hmac.HMAC.Sum hmac.HMAC.Write hmac.New hmacSHA256
  simp only [sha256.New, sha256.digest.Write, sha256.digest.Sum, sha256.digest.Reset,
    sha256.BlockSize]
  rw [List.length_nil, List.take_zero, List.drop_zero]
  simp only [List.nil_append]
  split_ifs with h
  · simp only [List.append_assoc]
  · simp only [List.append_assoc]

theorem hmacSHA256_length (key msg : List Nat) : (hmacSHA256 key msg).length = 32 := by
  unfold hmacSHA256
  exact sha256_checkSum_length _

theorem normalizePartID_eq (appSalt deviceName mountpoint : String) :
    normalizePartID appSalt deviceName mountpoint
      = hex.EncodeToString (hmacSHA256 (bytes appSalt) (bytes (deviceName ++ mountpoint))) := by
  unfold normalizePartID
  simp only
  rw [hmac_Sum_eq, bytes_append]

/-- Claim C7: `normalizePartID(device, mountPoint)` run with `appSalt = salt` is the
lowercase hexadecimal encoding of HMAC-SHA256 with key `salt` over the bytes of
`device ++ mountPoint`; being a function of the triple it gives the same
identifier on the same triple, and the identifier always has 64 characters,
all among `0-9a-f`. -/
theorem normalizePartID_spec (salt device mountPoint : String) :
    normalizePartID salt device mountPoint
        = hex.EncodeToString (hmacSHA256 (bytes salt) (bytes (device ++ mountPoint)))
    ∧ (normalizePartID salt device mountPoint).length = 64
    ∧ ∀ c ∈ (normalizePartID salt device mountPoint).data, c ∈ "0123456789abcdef".data := by
  refine ⟨normalizePartID_eq salt device mountPoint, ?_, ?_⟩
  · rw [normalizePartID_eq, hex_EncodeToString_length, hmacSHA256_length]
  · rw [normalizePartID_eq]
    exact hex_EncodeToString_digits _

/-! ## Facts about the route patterns -/

theorem fsPrefix_eq (key : String) :
    endpointFilesystem ++ "/" ++ key = "/filesystem/" ++ key := by
  apply String.ext
  simp only [String.data_append, endpointFilesystem, List.append_assoc]
  rfl

theorem fsPattern_data (key : String) :
    (endpointFilesystem ++ "/" ++ key ++ "/").data
      = '/' :: 'f' :: 'i' :: 'l' :: 'e' :: 's' :: 'y' :: 's' :: 't' :: 'e' :: 'm' :: '/'
          :: (key.data ++ ['/']) := by
  simp only [String.data_append, endpointFilesystem, List.append_assoc]
  rfl

theorem fsPattern_ne_empty (key : String) : endpointFilesystem ++ "/" ++ key ++ "/" ≠ "" := by
  intro h
  have h2 := congrArg String.data h
  rw [fsPattern_data] at h2
  exact List.noConfusion h2

theorem fsPattern_ne_parts (key : String) :
    endpointFilesystem ++ "/" ++ key ++ "/" ≠ "/parts" := by
  intro h
  have h2 := congrArg String.data h
  rw [fsPattern_data] at h2
  have h3 : ('f' : Char) = 'p' := (List.cons.inj (List.cons.inj h2).2).1
  exact absurd h3 (by decide)

theorem fsPattern_ne_root (key : String) : endpointFilesystem ++ "/" ++ key ++ "/" ≠ "/" := by
  intro h
  have h2 := congrArg String.data h
  rw [fsPattern_data] at h2
  exact List.noConfusion (List.cons.inj h2).2

theorem fsPattern_inj (a b : String)
    (h : endpointFilesystem ++ "/" ++ a ++ "/" = endpointFilesystem ++ "/" ++ b ++ "/") :
    a = b := by
  have h2 := congrArg String.data h
  rw [fsPattern_data, fsPattern_data] at h2
  simp only [List.cons.injEq, true_and] at h2
  exact String.ext (List.append_cancel_right h2)

/-! ## Facts about the loop over the enumeration -/

theorem Grows.refl (s : State) : Grows s s :=
  ⟨fun _ _ h => h, fun _ _ h => h, fun _ _ => rfl, rfl, rfl⟩

theorem Grows.trans {s s1 s2 : State} (h1 : Grows s s1) (h2 : Grows s1 s2) : Grows s s2 := by
  obtain ⟨a1, b1, c1, d1, e1⟩ := h1
  obtain ⟨a2, b2, c2, d2, e2⟩ := h2
  refine ⟨fun k h hk => a2 k h (a1 k h hk), fun p h hp => b2 p h (b1 p h hp), ?_,
    d2.trans d1, e2.trans e1⟩
  intro p hp
  have hp1 : p ∈ s1.mux.patterns := by
    have hc := c1 p hp
    have hpos : 0 < s.mux.patterns.count p := List.count_pos_iff.mpr hp
    rw [← hc] at hpos
    exact List.count_pos_iff.mp hpos
  rw [c2 p hp1, c1 p hp]

theorem mapGet_mapSet_of_some {V : Type} (m : GoMap V) (key k : String) (v h : V)
    (hnone : mapGet m key = none) (hk : mapGet m k = some h) :
    mapGet (mapSet m key v) k = some h := by
  have hne : key ≠ k := by
    intro e
    rw [e, hk] at hnone
    exact Option.noConfusion hnone
  rw [mapGet_mapSet_ne m key k v hne, hk]

theorem registerPart_cases (appSalt : String) (s : State) (part : PartitionStat) :
    (mapGet s.registeredFileServer (normalizePartID appSalt part.Device part.Mountpoint) ≠ none
      ∧ registerPart appSalt s part = Run.done s)
    ∨ (mapGet s.registeredFileServer (normalizePartID appSalt part.Device part.Mountpoint) = none
      ∧ endpointFilesystem ++ "/" ++ normalizePartID appSalt part.Device part.Mountpoint ++ "/"
          ∈ s.mux.patterns
      ∧ ∃ msg, registerPart appSalt s part
          = Run.panicked
              { s with
                registeredFileServer :=
                  mapSet s.registeredFileServer
                    (normalizePartID appSalt part.Device part.Mountpoint)
                    (Handler.StripPrefix
                      (endpointFilesystem ++ "/"
                        ++ normalizePartID appSalt part.Device part.Mountpoint)
                      (Handler.FileServer part.Mountpoint)) }
              msg)
    ∨ (mapGet s.registeredFileServer (normalizePartID appSalt part.Device part.Mountpoint) = none
      ∧ endpointFilesystem ++ "/" ++ normalizePartID appSalt part.Device part.Mountpoint ++ "/"
          ∉ s.mux.patterns
      ∧ registerPart appSalt s part
          = Run.done
              { s with
                registeredFileServer :=
                  mapSet s.registeredFileServer
                    (normalizePartID appSalt part.Device part.Mountpoint)
                    (Handler.StripPrefix
                      (endpointFilesystem ++ "/"
                        ++ normalizePartID appSalt part.Device part.Mountpoint)
                      (Handler.FileServer part.Mountpoint))
                mux :=
                  ⟨s.mux.entries
                    ++ [(endpointFilesystem ++ "/"
                          ++ normalizePartID appSalt part.Device part.Mountpoint ++ "/",
                        Handler.nocacheServer
                          (Handler.StripPrefix
                            (endpointFilesystem ++ "/"
                              ++ normalizePartID appSalt part.Device part.Mountpoint)
                            (Handler.FileServer part.Mountpoint)))]⟩ }) := by
  unfold registerPart
  generalize normalizePartID appSalt part.Device part.Mountpoint = key
  cases hk : mapGet s.registeredFileServer key with
  | some h =>
    left
    refine ⟨fun e => Option.noConfusion e, ?_⟩
    simp only [hk]
  | none =>
    right
    by_cases hp : endpointFilesystem ++ "/" ++ key ++ "/" ∈ s.mux.patterns
    · left
      refine ⟨rfl, hp, "http: multiple registrations for "
        ++ (endpointFilesystem ++ "/" ++ key ++ "/"), ?_⟩
      simp only [hk, ServeMux.Handle, fsPattern_ne_empty, if_false, hp, if_true]
    · right
      refine ⟨rfl, hp, ?_⟩
      simp only [hk, ServeMux.Handle, fsPattern_ne_empty, if_false, hp]

theorem patterns_append (m : ServeMux) (p : String) (h : Handler) :
    (ServeMux.mk (m.entries ++ [(p, h)])).patterns = m.patterns ++ [p] := by
  simp only [ServeMux.patterns, List.map_append, List.map_cons, List.map_nil]

theorem handlerOf_some_mem (m : ServeMux) (p : String) (h : Handler)
    (hp : m.handlerOf p = some h) : p ∈ m.patterns := by
  by_contra hc
  have hn : mapGet m.entries p = none := (mapGet_eq_none_iff m.entries p).mpr hc
  unfold ServeMux.handlerOf at hp
  rw [hn] at hp
  exact Option.noConfusion hp

theorem handlerOf_append_new (m : ServeMux) (p : String) (h : Handler)
    (hp : p ∉ m.patterns) : (ServeMux.mk (m.entries ++ [(p, h)])).handlerOf p = some h := by
  unfold ServeMux.handlerOf
  rw [mapGet_append_of_not_mem m.entries _ p hp]
  simp only [mapGet, if_true]

theorem count_append_new (l : List String) (p q : String) (hq : q ∈ l) (hp : p ∉ l) :
    (l ++ [p]).count q = l.count q := by
  have hne : p ≠ q := fun e => hp (e ▸ hq)
  rw [List.count_append, List.count_singleton]
  simp [hne]

theorem count_append_self (l : List String) (p : String) (hp : p ∉ l) :
    (l ++ [p]).count p = 1 := by
  rw [List.count_append, List.count_singleton, List.count_eq_zero_of_not_mem hp]
  simp

theorem registerPart_grows (appSalt : String) (s : State) (part : PartitionStat) :
    Grows s (registerPart appSalt s part).state := by
  rcases registerPart_cases appSalt s part with ⟨_, h⟩ | ⟨hk, _, msg, h⟩ | ⟨hk, hp, h⟩
  · rw [h]
    exact Grows.refl s
  · rw [h]
    exact ⟨fun k v hv => mapGet_mapSet_of_some _ _ k _ v hk hv, fun _ _ hv => hv,
      fun _ _ => rfl, rfl, rfl⟩
  · rw [h]
    refine ⟨fun k v hv => mapGet_mapSet_of_some _ _ k _ v hk hv, ?_, ?_, rfl, rfl⟩
    · intro p v hv
      exact mapGet_append_of_some s.mux.entries _ p v hv
    · intro p hpm
      simp only [Run.state]
      rw [patterns_append]
      exact count_append_new _ _ _ hpm hp

theorem rangeParts_grows (appSalt : String) (newPartitions : List PartitionStat) (s : State) :
    Grows s (rangeParts appSalt s newPartitions).state := by
  induction newPartitions generalizing s with
  | nil => exact Grows.refl s
  | cons part rest ih =>
    have hg := registerPart_grows appSalt s part
    unfold rangeParts
    cases hr : registerPart appSalt s part with
    | done s1 =>
      rw [hr] at hg
      exact Grows.trans hg (ih s1)
    | panicked s1 msg =>
      rw [hr] at hg
      exact hg

theorem rangeParts_done_grows (appSalt : String) (newPartitions : List PartitionStat)
    (s s2 : State) (h : rangeParts appSalt s newPartitions = Run.done s2) : Grows s s2 := by
  have hg := rangeParts_grows appSalt newPartitions s
  rw [h] at hg
  exact hg

theorem rangeParts_cons_done (appSalt : String) (s s2 : State) (part : PartitionStat)
    (rest : List PartitionStat) (h : rangeParts appSalt s (part :: rest) = Run.done s2) :
    ∃ s1, registerPart appSalt s part = Run.done s1 ∧ rangeParts appSalt s1 rest = Run.done s2 := by
  unfold rangeParts at h
  cases hr : registerPart appSalt s part with
  | done s1 =>
    rw [hr] at h
    exact ⟨s1, rfl, h⟩
  | panicked s1 msg =>
    rw [hr] at h
    exact Run.noConfusion h

theorem registerPart_done_registered (appSalt : String) (s s1 : State) (part : PartitionStat)
    (h : registerPart appSalt s part = Run.done s1) :
    mapGet s1.registeredFileServer (normalizePartID appSalt part.Device part.Mountpoint) ≠ none := by
  rcases registerPart_cases appSalt s part with ⟨hk, h2⟩ | ⟨_, _, msg, h2⟩ | ⟨_, _, h2⟩
  · rw [h2] at h
    cases h
    exact hk
  · rw [h2] at h
    exact Run.noConfusion h
  · rw [h2] at h
    cases h
    simp only [mapGet_mapSet_self]
    exact fun e => Option.noConfusion e

theorem registerPart_done_other (appSalt : String) (s s1 : State) (part : PartitionStat)
    (key : String) (hne : normalizePartID appSalt part.Device part.Mountpoint ≠ key)
    (hk : mapGet s.registeredFileServer key = none)
    (h : registerPart appSalt s part = Run.done s1) :
    mapGet s1.registeredFileServer key = none := by
  rcases registerPart_cases appSalt s part with ⟨_, h2⟩ | ⟨_, _, msg, h2⟩ | ⟨_, _, h2⟩
  · rw [h2] at h
    cases h
    exact hk
  · rw [h2] at h
    exact Run.noConfusion h
  · rw [h2] at h
    cases h
    simp only
    rw [mapGet_mapSet_ne _ _ _ _ hne, hk]

theorem registerPart_done_new (appSalt : String) (s s1 : State) (part : PartitionStat)
    (hk : mapGet s.registeredFileServer (normalizePartID appSalt part.Device part.Mountpoint)
      = none)
    (h : registerPart appSalt s part = Run.done s1) :
    mapGet s1.registeredFileServer (normalizePartID appSalt part.Device part.Mountpoint)
        = some (Handler.StripPrefix
            (endpointFilesystem ++ "/" ++ normalizePartID appSalt part.Device part.Mountpoint)
            (Handler.FileServer part.Mountpoint))
    ∧ s1.mux.handlerOf
          (endpointFilesystem ++ "/" ++ normalizePartID appSalt part.Device part.Mountpoint ++ "/")
        = some (Handler.nocacheServer (Handler.StripPrefix
            (endpointFilesystem ++ "/" ++ normalizePartID appSalt part.Device part.Mountpoint)
            (Handler.FileServer part.Mountpoint)))
    ∧ s1.mux.patterns.count
          (endpointFilesystem ++ "/" ++ normalizePartID appSalt part.Device part.Mountpoint ++ "/")
        = 1 := by
  rcases registerPart_cases appSalt s part with ⟨hk2, _⟩ | ⟨_, _, msg, h2⟩ | ⟨_, hp, h2⟩
  · exact absurd hk hk2
  · rw [h2] at h
    exact Run.noConfusion h
  · rw [h2] at h
    cases h
    refine ⟨mapGet_mapSet_self _ _ _, handlerOf_append_new _ _ _ hp, ?_⟩
    simp only
    rw [patterns_append]
    exact count_append_self _ _ hp

theorem rangeParts_registered (appSalt : String) (newPartitions : List PartitionStat)
    (s s2 : State) (h : rangeParts appSalt s newPartitions = Run.done s2) :
    ∀ v ∈ newPartitions,
      mapGet s2.registeredFileServer (normalizePartID appSalt v.Device v.Mountpoint) ≠ none := by
  induction newPartitions generalizing s with
  | nil => intro v hv; cases hv
  | cons part rest ih =>
    obtain ⟨s1, h1, h2⟩ := rangeParts_cons_done appSalt s s2 part rest h
    intro v hv
    rcases List.mem_cons.mp hv with hv | hv
    · subst hv
      have hreg := registerPart_done_registered appSalt s s1 v h1
      have hg := rangeParts_done_grows appSalt rest s1 s2 h2
      cases hx : mapGet s1.registeredFileServer (normalizePartID appSalt v.Device v.Mountpoint) with
      | none => exact absurd hx hreg
      | some hd =>
        rw [hg.1 _ hd hx]
        exact fun e => Option.noConfusion e
    · exact ih s1 h2 v hv

theorem rangeParts_first (appSalt : String) (pre : List PartitionStat) (v : PartitionStat)
    (post : List PartitionStat) (s s2 : State)
    (h : rangeParts appSalt s (pre ++ v :: post) = Run.done s2)
    (hk : mapGet s.registeredFileServer (normalizePartID appSalt v.Device v.Mountpoint) = none)
    (hpre : ∀ u ∈ pre, normalizePartID appSalt u.Device u.Mountpoint
      ≠ normalizePartID appSalt v.Device v.Mountpoint) :
    mapGet s2.registeredFileServer (normalizePartID appSalt v.Device v.Mountpoint)
        = some (Handler.StripPrefix
            (endpointFilesystem ++ "/" ++ normalizePartID appSalt v.Device v.Mountpoint)
            (Handler.FileServer v.Mountpoint))
    ∧ s2.mux.handlerOf
          (endpointFilesystem ++ "/" ++ normalizePartID appSalt v.Device v.Mountpoint ++ "/")
        = some (Handler.nocacheServer (Handler.StripPrefix
            (endpointFilesystem ++ "/" ++ normalizePartID appSalt v.Device v.Mountpoint)
            (Handler.FileServer v.Mountpoint)))
    ∧ s2.mux.patterns.count
          (endpointFilesystem ++ "/" ++ normalizePartID appSalt v.Device v.Mountpoint ++ "/")
        = 1 := by
  induction pre generalizing s with
  | nil =>
    obtain ⟨s1, h1, h2⟩ := rangeParts_cons_done appSalt s s2 v post h
    obtain ⟨a, b, c⟩ := registerPart_done_new appSalt s s1 v hk h1
    have hg := rangeParts_done_grows appSalt post s1 s2 h2
    refine ⟨hg.1 _ _ a, hg.2.1 _ _ b, ?_⟩
    rw [hg.2.2.1 _ (handlerOf_some_mem _ _ _ b), c]
  | cons u pre ih =>
    obtain ⟨s1, h1, h2⟩ := rangeParts_cons_done appSalt s s2 u (pre ++ v :: post) h
    have hne := hpre u (List.mem_cons_self u pre)
    have hk1 := registerPart_done_other appSalt s s1 u _ hne hk h1
    exact ih s1 h2 hk1 (fun w hw => hpre w (List.mem_cons_of_mem u hw))

/-! ## Facts about one iteration and about the whole loop -/

theorem periodicCheckPartitionsIter_ok_done (appSalt : String) (s s2 : State)
    (newPartitions : List PartitionStat)
    (h : periodicCheckPartitionsIter appSalt s (.ok newPartitions) = Run.done s2) :
    ∃ s1, rangeParts appSalt s newPartitions = Run.done s1
      ∧ s2.registeredFileServer = s1.registeredFileServer
      ∧ s2.mux = s1.mux
      ∧ s2.partitions = newPartitions
      ∧ s2.events = s.events
          ++ [Event.Debug "periodic part check" "parts" newPartitions,
              Event.Debug "partition update" "diff" (partitionDiff newPartitions newPartitions),
              Event.Sleep 10] := by
  simp only [periodicCheckPartitionsIter] at h
  cases hr : rangeParts appSalt s newPartitions with
  | panicked s1 msg =>
    rw [hr] at h
    exact Run.noConfusion h
  | done s1 =>
    rw [hr] at h
    simp only [Run.done.injEq] at h
    subst h
    refine ⟨s1, rfl, rfl, rfl, rfl, ?_⟩
    simp only [(rangeParts_done_grows appSalt newPartitions s s1 hr).2.2.2.2,
      List.append_assoc, List.singleton_append]

theorem periodicCheckPartitionsIter_grows (appSalt : String) (s : State)
    (res : Except GoError (List PartitionStat)) :
    (∀ k h, mapGet s.registeredFileServer k = some h
      → mapGet (periodicCheckPartitionsIter appSalt s res).state.registeredFileServer k = some h)
    ∧ (∀ p h, s.mux.handlerOf p = some h
      → (periodicCheckPartitionsIter appSalt s res).state.mux.handlerOf p = some h)
    ∧ (∀ p, p ∈ s.mux.patterns
      → (periodicCheckPartitionsIter appSalt s res).state.mux.patterns.count p
          = s.mux.patterns.count p) := by
  cases res with
  | error err => exact ⟨fun _ _ h => h, fun _ _ h => h, fun _ _ => rfl⟩
  | ok newPartitions =>
    have hg := rangeParts_grows appSalt newPartitions s
    simp only [periodicCheckPartitionsIter]
    cases hr : rangeParts appSalt s newPartitions with
    | panicked s1 msg =>
      rw [hr] at hg
      exact ⟨hg.1, hg.2.1, hg.2.2.1⟩
    | done s1 =>
      rw [hr] at hg
      exact ⟨hg.1, hg.2.1, hg.2.2.1⟩

theorem RouteInv_initialState : RouteInv initialState := by
  refine ⟨by decide, ?_, ?_⟩
  · intro p hp
    simp only [initialState, ServeMux.patterns, List.map_cons, List.map_nil, List.mem_cons,
      List.mem_singleton, List.not_mem_nil, or_false] at hp
    rcases hp with hp | hp
    · exact Or.inl hp
    · exact Or.inr (Or.inl hp)
  · intro id hid
    exact absurd rfl hid

theorem registerPart_inv (appSalt : String) (s : State) (part : PartitionStat)
    (hinv : RouteInv s) :
    ∃ s1, registerPart appSalt s part = Run.done s1 ∧ RouteInv s1 := by
  obtain ⟨hnd, hpat, hkey⟩ := hinv
  rcases registerPart_cases appSalt s part with ⟨_, h⟩ | ⟨hk, hp, _⟩ | ⟨hk, hp, h⟩
  · exact ⟨s, h, hnd, hpat, hkey⟩
  · exfalso
    rcases hpat _ hp with e | e | ⟨id, hid, e⟩
    · exact fsPattern_ne_parts _ e
    · exact fsPattern_ne_root _ e
    · rw [fsPattern_inj _ _ e] at hk
      exact hid hk
  · refine ⟨_, h, ?_, ?_, ?_⟩
    · simp only
      rw [patterns_append]
      exact List.Nodup.append hnd (List.nodup_singleton _)
        (by
          intro a ha hb
          rw [List.mem_singleton] at hb
          exact hp (hb ▸ ha))
    · intro p hpm
      simp only at hpm
      rw [patterns_append, List.mem_append, List.mem_singleton] at hpm
      rcases hpm with hpm | hpm
      · rcases hpat p hpm with e | e | ⟨id, hid, e⟩
        · exact Or.inl e
        · exact Or.inr (Or.inl e)
        · refine Or.inr (Or.inr ⟨id, ?_, e⟩)
          simp only
          cases hx : mapGet s.registeredFileServer id with
          | none => exact absurd hx hid
          | some hd =>
            rw [mapGet_mapSet_of_some _ _ id _ hd hk hx]
            exact fun e2 => Option.noConfusion e2
      · refine Or.inr (Or.inr ⟨_, ?_, hpm⟩)
        simp only [mapGet_mapSet_self]
        exact fun e2 => Option.noConfusion e2
    · intro id hid
      simp only at hid ⊢
      rw [patterns_append, List.mem_append, List.mem_singleton]
      by_cases e : normalizePartID appSalt part.Device part.Mountpoint = id
      · right
        rw [e]
      · left
        rw [mapGet_mapSet_ne _ _ _ _ e] at hid
        exact hkey id hid

theorem rangeParts_inv (appSalt : String) (newPartitions : List PartitionStat) (s : State)
    (hinv : RouteInv s) :
    ∃ s1, rangeParts appSalt s newPartitions = Run.done s1 ∧ RouteInv s1 := by
  induction newPartitions generalizing s with
  | nil => exact ⟨s, rfl, hinv⟩
  | cons part rest ih =>
    obtain ⟨s1, h1, hinv1⟩ := registerPart_inv appSalt s part hinv
    obtain ⟨s2, h2, hinv2⟩ := ih s1 hinv1
    refine ⟨s2, ?_, hinv2⟩
    unfold rangeParts
    rw [h1]
    exact h2

theorem periodicCheckPartitionsIter_inv (appSalt : String) (s : State)
    (res : Except GoError (List PartitionStat)) (hinv : RouteInv s) :
    ∃ s1, periodicCheckPartitionsIter appSalt s res = Run.done s1 ∧ RouteInv s1 := by
  cases res with
  | error err => exact ⟨_, rfl, hinv⟩
  | ok newPartitions =>
    obtain ⟨s1, h1, hinv1⟩ := rangeParts_inv appSalt newPartitions s hinv
    simp only [periodicCheckPartitionsIter, h1]
    exact ⟨_, rfl, hinv1⟩

theorem periodicCheckPartitions_inv (appSalt : String)
    (results : List (Except GoError (List PartitionStat))) (s : State) (hinv : RouteInv s) :
    ∃ s1, periodicCheckPartitions appSalt s results = Run.done s1 ∧ RouteInv s1 := by
  induction results generalizing s with
  | nil => exact ⟨s, rfl, hinv⟩
  | cons res rest ih =>
    obtain ⟨s1, h1, hinv1⟩ := periodicCheckPartitionsIter_inv appSalt s res hinv
    obtain ⟨s2, h2, hinv2⟩ := ih s1 hinv1
    refine ⟨s2, ?_, hinv2⟩
    unfold periodicCheckPartitions
    rw [h1]
    exact h2

/-! ## Two evaluated iterations -/

set_option maxRecDepth 100000 in
theorem periodicCheckPartitionsIter_sda1 :
    periodicCheckPartitionsIter "BUZZINGA" initialState (.ok [sda1])
      = Run.done (sda1State [sda1]
          [Event.Debug "periodic part check" "parts" [sda1],
           Event.Debug "partition update" "diff" [], Event.Sleep 10]) := by
  decide

set_option maxRecDepth 100000 in
theorem periodicCheckPartitionsIter_sda1_sdaSplit :
    periodicCheckPartitionsIter "BUZZINGA" initialState (.ok [sda1, sdaSplit])
      = Run.done (sda1State [sda1, sdaSplit]
          [Event.Debug "periodic part check" "parts" [sda1, sdaSplit],
           Event.Debug "partition update" "diff" [], Event.Sleep 10]) := by
  decide

/-! ## The claims about the discovery loop -/

/-- Claim C2: after an iteration of `periodicCheckPartitions` that enumerated the
volumes and ran to its end, from any prior state, every enumerated volume has
its identifier in `registeredFileServer`; and a volume whose identifier had no
route before and that is the first of the enumeration with this identifier has
as entry the file server of its mount point with "/filesystem/{identifier}"
stripped, the mux holding that handler wrapped in `nocacheServer` under
"/filesystem/{identifier}/". -/
theorem periodicCheckPartitionsIter_registers (appSalt : String) (s s2 : State)
    (newPartitions : List PartitionStat)
    (h : periodicCheckPartitionsIter appSalt s (.ok newPartitions) = Run.done s2) :
    (∀ v ∈ newPartitions,
      mapGet s2.registeredFileServer (normalizePartID appSalt v.Device v.Mountpoint) ≠ none)
    ∧ (∀ (pre : List PartitionStat) (v : PartitionStat) (post : List PartitionStat),
        newPartitions = pre ++ v :: post →
        mapGet s.registeredFileServer (normalizePartID appSalt v.Device v.Mountpoint) = none →
        (∀ u ∈ pre, normalizePartID appSalt u.Device u.Mountpoint
          ≠ normalizePartID appSalt v.Device v.Mountpoint) →
        mapGet s2.registeredFileServer (normalizePartID appSalt v.Device v.Mountpoint)
            = some (Handler.StripPrefix
                ("/filesystem/" ++ normalizePartID appSalt v.Device v.Mountpoint)
                (Handler.FileServer v.Mountpoint))
        ∧ s2.mux.handlerOf
              ("/filesystem/" ++ normalizePartID appSalt v.Device v.Mountpoint ++ "/")
            = some (Handler.nocacheServer (Handler.StripPrefix
                ("/filesystem/" ++ normalizePartID appSalt v.Device v.Mountpoint)
                (Handler.FileServer v.Mountpoint)))) := by
  obtain ⟨s1, hr, hreg, hmux, _, _⟩ := periodicCheckPartitionsIter_ok_done appSalt s s2 _ h
  constructor
  · intro v hv
    rw [hreg]
    exact rangeParts_registered appSalt newPartitions s s1 hr v hv
  · intro pre v post hsplit hk hpre
    subst hsplit
    obtain ⟨a, b, _⟩ := rangeParts_first appSalt pre v post s s1 hr hk hpre
    rw [hreg, hmux, ← fsPrefix_eq]
    exact ⟨a, b⟩

/-- Instance of `periodicCheckPartitionsIter_registers`: the first poll that lists
`/dev/sda1` mounted at `/data`, under the default salt. -/
theorem periodicCheckPartitionsIter_registers_witness :
    periodicCheckPartitionsIter "BUZZINGA" initialState (.ok [sda1])
        = Run.done (sda1State [sda1]
            [Event.Debug "periodic part check" "parts" [sda1],
             Event.Debug "partition update" "diff" [], Event.Sleep 10])
    ∧ mapGet
          (sda1State [sda1]
            [Event.Debug "periodic part check" "parts" [sda1],
             Event.Debug "partition update" "diff" [], Event.Sleep 10]).registeredFileServer
          (normalizePartID "BUZZINGA" sda1.Device sda1.Mountpoint)
        = some (Handler.StripPrefix
            ("/filesystem/" ++ normalizePartID "BUZZINGA" sda1.Device sda1.Mountpoint)
            (Handler.FileServer sda1.Mountpoint)) :=
  ⟨periodicCheckPartitionsIter_sda1,
    ((periodicCheckPartitionsIter_registers "BUZZINGA" initialState _ [sda1]
      periodicCheckPartitionsIter_sda1).2 [] sda1 [] rfl rfl
      (fun _ hu => absurd hu (List.not_mem_nil _))).1⟩

/-- Claim C3: registration is monotonic. Whatever one iteration of
`periodicCheckPartitions` meets (an enumeration error or any enumeration),
every key of `registeredFileServer` is still a key afterwards with the same
handler, and every pattern of the mux, the route of such a key included, is
still bound to the same handler and has not been registered again. -/
theorem periodicCheckPartitionsIter_monotone (appSalt : String) (s : State)
    (res : Except GoError (List PartitionStat)) :
    (∀ k h, mapGet s.registeredFileServer k = some h
      → mapGet (periodicCheckPartitionsIter appSalt s res).state.registeredFileServer k = some h)
    ∧ (∀ p h, s.mux.handlerOf p = some h
      → (periodicCheckPartitionsIter appSalt s res).state.mux.handlerOf p = some h
        ∧ (periodicCheckPartitionsIter appSalt s res).state.mux.patterns.count p
            = s.mux.patterns.count p) := by
  obtain ⟨a, b, c⟩ := periodicCheckPartitionsIter_grows appSalt s res
  exact ⟨a, fun p h hp => ⟨b p h hp, c p (handlerOf_some_mem _ _ _ hp)⟩⟩

/-- Claim C4: in every state reached from the initial state of `main` by any
sequence of iterations of `periodicCheckPartitions`, no iteration panics (the
mux is never handed a pattern it already holds), the patterns of the mux are
pairwise different, each key `id` of `registeredFileServer` has exactly one
pattern "/filesystem/{id}/", and the mux holds no other pattern than these
and the two pages "/parts" and "/". -/
theorem periodicCheckPartitions_routes (appSalt : String)
    (results : List (Except GoError (List PartitionStat))) :
    ∃ s, periodicCheckPartitions appSalt initialState results = Run.done s
      ∧ s.mux.patterns.Nodup
      ∧ (∀ id, mapGet s.registeredFileServer id ≠ none
          → s.mux.patterns.count ("/filesystem/" ++ id ++ "/") = 1)
      ∧ (∀ p ∈ s.mux.patterns, p = "/parts" ∨ p = "/"
          ∨ ∃ id, mapGet s.registeredFileServer id ≠ none ∧ p = "/filesystem/" ++ id ++ "/") := by
  obtain ⟨s, hs, hnd, hpat, hkey⟩ :=
    periodicCheckPartitions_inv appSalt results initialState RouteInv_initialState
  refine ⟨s, hs, hnd, ?_, ?_⟩
  · intro id hid
    rw [← fsPrefix_eq]
    exact List.count_eq_one_of_mem hnd (hkey id hid)
  · intro p hp
    rcases hpat p hp with e | e | ⟨id, hid, e⟩
    · exact Or.inl e
    · exact Or.inr (Or.inl e)
    · refine Or.inr (Or.inr ⟨id, hid, ?_⟩)
      rw [← fsPrefix_eq]
      exact e

/-- Claim C5: when `disk.Partitions` returns an error, the iteration logs it and
sleeps; the snapshot, `registeredFileServer` and the mux are exactly as
before, so every route registered before is still registered with the same
handler. -/
theorem periodicCheckPartitionsIter_error (appSalt : String) (s : State) (err : GoError) :
    ∃ s1, periodicCheckPartitionsIter appSalt s (.error err) = Run.done s1
      ∧ s1.partitions = s.partitions
      ∧ s1.registeredFileServer = s.registeredFileServer
      ∧ s1.mux = s.mux
      ∧ s1.events = s.events ++ [Event.Error "periodic part check" err, Event.Sleep 10]
      ∧ (∀ k h, mapGet s.registeredFileServer k = some h
          → mapGet s1.registeredFileServer k = some h)
      ∧ (∀ p h, s.mux.handlerOf p = some h → s1.mux.handlerOf p = some h) :=
  ⟨_, rfl, rfl, rfl, rfl, rfl, fun _ _ h => h, fun _ _ h => h⟩

/-- Claim C6, as the code behaves: the snapshot is overwritten with the fresh
enumeration before the diff is taken, so every iteration that runs to its end
logs the empty diff; on the first poll listing `sda1` the volumes that newly
appeared are `[sda1]` and the diff logged is `[]`. -/
theorem periodicCheckPartitionsIter_diff_logged :
    (∀ (appSalt : String) (s s2 : State) (newPartitions : List PartitionStat),
      periodicCheckPartitionsIter appSalt s (.ok newPartitions) = Run.done s2 →
      s2.events = s.events
        ++ [Event.Debug "periodic part check" "parts" newPartitions,
            Event.Debug "partition update" "diff" [], Event.Sleep 10])
    ∧ partitionDiff initialState.partitions [sda1] = [sda1]
    ∧ (periodicCheckPartitionsIter "BUZZINGA" initialState (.ok [sda1])).state.events
        = [Event.Debug "periodic part check" "parts" [sda1],
           Event.Debug "partition update" "diff" [], Event.Sleep 10] := by
  refine ⟨?_, by decide, ?_⟩
  · intro appSalt s s2 newPartitions h
    obtain ⟨s1, _, _, _, _, hev⟩ := periodicCheckPartitionsIter_ok_done appSalt s s2 _ h
    rw [hev, partitionDiff_self]
  · rw [periodicCheckPartitionsIter_sda1]
    rfl

/-! ## Facts about `nocacheServer` -/

theorem canonical_noCache_keys :
    textproto.CanonicalMIMEHeaderKey "Cache-Control" = "Cache-Control"
    ∧ textproto.CanonicalMIMEHeaderKey "Pragma" = "Pragma"
    ∧ textproto.CanonicalMIMEHeaderKey "Expires" = "Expires"
    ∧ textproto.CanonicalMIMEHeaderKey "Surrogate-Control" = "Surrogate-Control" := by
  decide

/-- Claim C8: `nocacheServer.ServeHTTP` sets `Cache-Control`, `Pragma`, `Expires` and
`Surrogate-Control` to their single no-cache values, whatever they held,
leaving every other header, the status and the body as they were; then, when
the wrapped handler is not nil, the result is that handler run once on this
writer and the same request, and when it is nil the writer with the four
headers is the result, with no status and no body written. -/
theorem nocacheServer_ServeHTTP_spec (H : Option ServeFunc) (w : ResponseWriter) (r : Request) :
    ∃ w1 : ResponseWriter,
      mapGet w1.header "Cache-Control" = some ["no-cache, no-store, must-revalidate"]
      ∧ mapGet w1.header "Pragma" = some ["no-cache"]
      ∧ mapGet w1.header "Expires" = some ["0"]
      ∧ mapGet w1.header "Surrogate-Control" = some ["no-cache"]
      ∧ (∀ k, k ≠ "Cache-Control" → k ≠ "Pragma" → k ≠ "Expires" → k ≠ "Surrogate-Control"
          → mapGet w1.header k = mapGet w.header k)
      ∧ w1.status = w.status
      ∧ w1.body = w.body
      ∧ nocacheServer.ServeHTTP ⟨H⟩ w r = (match H with
          | some h => h w1 r
          | none => w1) := by
  obtain ⟨c1, c2, c3, c4⟩ := canonical_noCache_keys
  refine ⟨{ w with header := Header.Set (Header.Set (Header.Set (Header.Set w.header
      "Cache-Control" "no-cache, no-store, must-revalidate") "Pragma" "no-cache")
      "Expires" "0") "Surrogate-Control" "no-cache" }, ?_, ?_, ?_, ?_, ?_, rfl, rfl, ?_⟩
  · simp only [Header.Set, c1, c2, c3, c4]
    rw [mapGet_mapSet_ne _ _ _ _ (by decide), mapGet_mapSet_ne _ _ _ _ (by decide),
      mapGet_mapSet_ne _ _ _ _ (by decide), mapGet_mapSet_self]
  · simp only [Header.Set, c1, c2, c3, c4]
    rw [mapGet_mapSet_ne _ _ _ _ (by decide), mapGet_mapSet_ne _ _ _ _ (by decide),
      mapGet_mapSet_self]
  · simp only [Header.Set, c1, c2, c3, c4]
    rw [mapGet_mapSet_ne _ _ _ _ (by decide), mapGet_mapSet_self]
  · simp only [Header.Set, c1, c2, c3, c4]
    rw [mapGet_mapSet_self]
  · intro k h1 h2 h3 h4
    simp only [Header.Set, c1, c2, c3, c4]
    rw [mapGet_mapSet_ne _ _ _ _ (Ne.symm h4), mapGet_mapSet_ne _ _ _ _ (Ne.symm h3),
      mapGet_mapSet_ne _ _ _ _ (Ne.symm h2), mapGet_mapSet_ne _ _ _ _ (Ne.symm h1)]
  · cases H with
    | none => rfl
    | some h => rfl

/-! ## Identifiers do not separate device and mount point -/

theorem normalizePartID_concat (salt d1 m1 d2 m2 : String) (h : d1 ++ m1 = d2 ++ m2) :
    normalizePartID salt d1 m1 = normalizePartID salt d2 m2 := by
  rw [normalizePartID_eq, normalizePartID_eq, h]

theorem rangeParts_pair (appSalt : String) (s s2 : State) (v1 v2 : PartitionStat)
    (hid : normalizePartID appSalt v2.Device v2.Mountpoint
      = normalizePartID appSalt v1.Device v1.Mountpoint)
    (hk : mapGet s.registeredFileServer (normalizePartID appSalt v1.Device v1.Mountpoint) = none)
    (h : rangeParts appSalt s [v1, v2] = Run.done s2) :
    s2.registeredFileServer
        = mapSet s.registeredFileServer (normalizePartID appSalt v1.Device v1.Mountpoint)
            (Handler.StripPrefix
              (endpointFilesystem ++ "/" ++ normalizePartID appSalt v1.Device v1.Mountpoint)
              (Handler.FileServer v1.Mountpoint))
    ∧ s2.mux.entries
        = s.mux.entries
            ++ [(endpointFilesystem ++ "/" ++ normalizePartID appSalt v1.Device v1.Mountpoint
                  ++ "/",
                Handler.nocacheServer (Handler.StripPrefix
                  (endpointFilesystem ++ "/" ++ normalizePartID appSalt v1.Device v1.Mountpoint)
                  (Handler.FileServer v1.Mountpoint)))] := by
  obtain ⟨sa, ha, h1⟩ := rangeParts_cons_done appSalt s s2 v1 [v2] h
  obtain ⟨sb, hb, h2⟩ := rangeParts_cons_done appSalt sa s2 v2 [] h1
  have hsb : sb = s2 := by
    unfold rangeParts at h2
    exact Run.done.inj h2
  subst hsb
  have hreg := registerPart_done_registered appSalt s sa v1 ha
  have hsame : sb = sa := by
    rcases registerPart_cases appSalt sa v2 with ⟨_, e⟩ | ⟨hn, _, _⟩ | ⟨hn, _, _⟩
    · rw [e] at hb
      exact (Run.done.inj hb).symm
    · rw [hid] at hn
      exact absurd hn hreg
    · rw [hid] at hn
      exact absurd hn hreg
  subst hsame
  rcases registerPart_cases appSalt s v1 with ⟨hn, _⟩ | ⟨_, _, msg, e⟩ | ⟨_, _, e⟩
  · exact absurd hk hn
  · rw [e] at ha
    exact Run.noConfusion ha
  · rw [e] at ha
    have hs := Run.done.inj ha
    subst hs
    exact ⟨rfl, rfl⟩

/-- Claim C10, amended: the identifier depends on the concatenation of device
and mount point only. The volumes ("/dev/sda1", "/data") and
("/dev/sda", "1/data") differ in both fields and concatenate alike; two
volumes that concatenate alike get the same identifier under every salt. When
both are enumerated in one iteration that runs to its end and the identifier
had no route before it, the route of the identifier is rooted at the mount
point of the one listed first, under a single mux pattern, and looking up the
second volume finds that route; an enumeration of just the two adds exactly
that one entry to `registeredFileServer` and to the mux. When the identifier
already had a route before the iteration, that route is kept for both volumes,
whichever is listed first. -/
theorem normalizePartID_collision :
    (sda1.Device ≠ sdaSplit.Device ∧ sda1.Mountpoint ≠ sdaSplit.Mountpoint
      ∧ sda1.Device ++ sda1.Mountpoint = sdaSplit.Device ++ sdaSplit.Mountpoint)
    ∧ (∀ salt d1 m1 d2 m2 : String, d1 ++ m1 = d2 ++ m2 →
        normalizePartID salt d1 m1 = normalizePartID salt d2 m2)
    ∧ (∀ (salt : String) (s s2 : State) (pre : List PartitionStat) (v1 : PartitionStat)
        (mid : List PartitionStat) (v2 : PartitionStat) (post : List PartitionStat),
        v1.Device ++ v1.Mountpoint = v2.Device ++ v2.Mountpoint →
        mapGet s.registeredFileServer (normalizePartID salt v1.Device v1.Mountpoint) = none →
        (∀ u ∈ pre, normalizePartID salt u.Device u.Mountpoint
          ≠ normalizePartID salt v1.Device v1.Mountpoint) →
        periodicCheckPartitionsIter salt s (.ok (pre ++ v1 :: (mid ++ v2 :: post)))
          = Run.done s2 →
        mapGet s2.registeredFileServer (normalizePartID salt v2.Device v2.Mountpoint)
            = some (Handler.StripPrefix
                ("/filesystem/" ++ normalizePartID salt v1.Device v1.Mountpoint)
                (Handler.FileServer v1.Mountpoint))
        ∧ s2.mux.handlerOf ("/filesystem/" ++ normalizePartID salt v2.Device v2.Mountpoint ++ "/")
            = some (Handler.nocacheServer (Handler.StripPrefix
                ("/filesystem/" ++ normalizePartID salt v1.Device v1.Mountpoint)
                (Handler.FileServer v1.Mountpoint)))
        ∧ s2.mux.patterns.count
              ("/filesystem/" ++ normalizePartID salt v2.Device v2.Mountpoint ++ "/")
            = 1)
    ∧ (∀ (salt : String) (s s2 : State) (v1 v2 : PartitionStat),
        v1.Device ++ v1.Mountpoint = v2.Device ++ v2.Mountpoint →
        mapGet s.registeredFileServer (normalizePartID salt v1.Device v1.Mountpoint) = none →
        periodicCheckPartitionsIter salt s (.ok [v1, v2]) = Run.done s2 →
        s2.registeredFileServer
            = mapSet s.registeredFileServer (normalizePartID salt v1.Device v1.Mountpoint)
                (Handler.StripPrefix
                  ("/filesystem/" ++ normalizePartID salt v1.Device v1.Mountpoint)
                  (Handler.FileServer v1.Mountpoint))
        ∧ s2.mux.entries
            = s.mux.entries
                ++ [("/filesystem/" ++ normalizePartID salt v1.Device v1.Mountpoint ++ "/",
                    Handler.nocacheServer (Handler.StripPrefix
                      ("/filesystem/" ++ normalizePartID salt v1.Device v1.Mountpoint)
                      (Handler.FileServer v1.Mountpoint)))])
    ∧ (∀ (salt : String) (s : State) (res : Except GoError (List PartitionStat))
        (v1 v2 : PartitionStat) (h : Handler),
        v1.Device ++ v1.Mountpoint = v2.Device ++ v2.Mountpoint →
        mapGet s.registeredFileServer (normalizePartID salt v1.Device v1.Mountpoint) = some h →
        mapGet (periodicCheckPartitionsIter salt s res).state.registeredFileServer
            (normalizePartID salt v1.Device v1.Mountpoint) = some h
        ∧ mapGet (periodicCheckPartitionsIter salt s res).state.registeredFileServer
            (normalizePartID salt v2.Device v2.Mountpoint) = some h) := by
  refine ⟨by decide, normalizePartID_concat, ?_, ?_, ?_⟩
  · intro salt s s2 pre v1 mid v2 post hcat hk hpre h
    obtain ⟨s1, hr, hreg, hmux, _, _⟩ := periodicCheckPartitionsIter_ok_done salt s s2 _ h
    obtain ⟨a, b, c⟩ := rangeParts_first salt pre v1 (mid ++ v2 :: post) s s1 hr hk hpre
    rw [← normalizePartID_concat salt _ _ _ _ hcat, hreg, hmux, ← fsPrefix_eq]
    exact ⟨a, b, c⟩
  · intro salt s s2 v1 v2 hcat hk h
    obtain ⟨s1, hr, hreg, hmux, _, _⟩ := periodicCheckPartitionsIter_ok_done salt s s2 _ h
    obtain ⟨a, b⟩ := rangeParts_pair salt s s1 v1 v2
      (normalizePartID_concat salt _ _ _ _ hcat).symm hk hr
    rw [hreg, hmux, ← fsPrefix_eq]
    exact ⟨a, b⟩
  · intro salt s res v1 v2 h hcat hk
    have hkept := (periodicCheckPartitionsIter_grows salt s res).1 _ h hk
    refine ⟨hkept, ?_⟩
    rw [← normalizePartID_concat salt _ _ _ _ hcat]
    exact hkept

/-- Instance of `normalizePartID_collision`: the first poll lists `/dev/sda1` at
`/data` and then `/dev/sda` at `1/data`; the only route added serves `/data`. -/
theorem normalizePartID_collision_witness :
    sda1.Device ++ sda1.Mountpoint = sdaSplit.Device ++ sdaSplit.Mountpoint
    ∧ periodicCheckPartitionsIter "BUZZINGA" initialState (.ok [sda1, sdaSplit])
        = Run.done (sda1State [sda1, sdaSplit]
            [Event.Debug "periodic part check" "parts" [sda1, sdaSplit],
             Event.Debug "partition update" "diff" [], Event.Sleep 10])
    ∧ (sda1State [sda1, sdaSplit]
          [Event.Debug "periodic part check" "parts" [sda1, sdaSplit],
           Event.Debug "partition update" "diff" [], Event.Sleep 10]).registeredFileServer
        = mapSet initialState.registeredFileServer
            (normalizePartID "BUZZINGA" sda1.Device sda1.Mountpoint)
            (Handler.StripPrefix
              ("/filesystem/" ++ normalizePartID "BUZZINGA" sda1.Device sda1.Mountpoint)
              (Handler.FileServer sda1.Mountpoint)) :=
  ⟨by decide, periodicCheckPartitionsIter_sda1_sdaSplit,
    (normalizePartID_collision.2.2.2.1 "BUZZINGA" initialState _ sda1 sdaSplit (by decide) rfl
      periodicCheckPartitionsIter_sda1_sdaSplit).1⟩

set_option maxRecDepth 100000 in
/-- Claim C10 as stated fails on a state reached from `main`: under the default
salt a first poll lists only `/dev/sda` at `1/data`, a second poll lists
`/dev/sda1` at `/data` and then `/dev/sda` at `1/data`. Both volumes of the
second poll have the identifier `sda1ID`, both meet the route of the first
poll, and after it the single route is rooted at `1/data`, the mount point of
the volume listed second, not at `/data`. -/
theorem normalizePartID_collision_counterexample :
    sda1.Device ++ sda1.Mountpoint = sdaSplit.Device ++ sdaSplit.Mountpoint
    ∧ normalizePartID "BUZZINGA" sda1.Device sda1.Mountpoint = sda1ID
    ∧ periodicCheckPartitions "BUZZINGA" initialState [.ok [sdaSplit], .ok [sda1, sdaSplit]]
        = Run.done (sdaSplitState [sda1, sdaSplit]
            [Event.Debug "periodic part check" "parts" [sdaSplit],
             Event.Debug "partition update" "diff" [], Event.Sleep 10,
             Event.Debug "periodic part check" "parts" [sda1, sdaSplit],
             Event.Debug "partition update" "diff" [], Event.Sleep 10])
    ∧ mapGet
          (sdaSplitState [sda1, sdaSplit]
            [Event.Debug "periodic part check" "parts" [sdaSplit],
             Event.Debug "partition update" "diff" [], Event.Sleep 10,
             Event.Debug "periodic part check" "parts" [sda1, sdaSplit],
             Event.Debug "partition update" "diff" [], Event.Sleep 10]).registeredFileServer
          sda1ID
        = some (Handler.StripPrefix ("/filesystem/" ++ sda1ID)
            (Handler.FileServer sdaSplit.Mountpoint))
    ∧ Handler.StripPrefix ("/filesystem/" ++ sda1ID) (Handler.FileServer sdaSplit.Mountpoint)
        ≠ Handler.StripPrefix ("/filesystem/" ++ sda1ID) (Handler.FileServer sda1.Mountpoint) := by
  decide

end GoRemoteAgent
